import Mathlib

/-!
# Verification of the byexample interactive session engine

Shallow embedding of `byexample/interpreter.py`, `byexample/concern.py` and
`byexample/byexample.py`.  Text is modelled as `List Char`; the pexpect child
is modelled by the byte stream it has produced (a timeout of the `expect` call
corresponds to the prompt pattern not occurring in the remaining stream).
Regular-expression prompt patterns are modelled as literal character-list
tokens, matched exactly as `re` matches a literal pattern: leftmost first,
non-overlapping, single pass.
-/

/-! ## Prompt scanning (`pexpect.spawn.expect` on a literal pattern) -/

/-- `startsWith pat s` is true when `pat` is a literal prefix of `s`
(a regex match of the literal pattern anchored at the start of `s`). -/
def startsWith : List Char → List Char → Bool
  | [], _ => true
  | _ :: _, [] => false
  | p :: ps, c :: cs => if p = c then startsWith ps cs else false

/-- `splitFirst pat s` finds the leftmost occurrence of the literal pattern
`pat` in `s`.  `some (before, rest)` means `s = before ++ pat ++ rest` with the
occurrence leftmost; `none` means `pat` does not occur.  This is the match
performed by one `interpreter.expect([PS1_re, TIMEOUT])` call: `before` is
`interpreter.before`, and `rest` is the data left in the incoming buffer. -/
def splitFirst (pat : List Char) : List Char → Option (List Char × List Char)
  | [] => none
  | c :: cs =>
    if startsWith pat (c :: cs) then some ([], (c :: cs).drop pat.length)
    else
      match splitFirst pat cs with
      | some (b, r) => some (c :: b, r)
      | none => none

/-! ## `PexepctMixin._universal_new_lines` (interpreter.py lines 180-187) -/

/-- The single left-to-right pass of `re.sub(r'\r\n', r'\n', out)`:
each leftmost CRLF is replaced by LF and scanning resumes after the
replacement (non-overlapping). -/
def crlfSub : List Char → List Char
  | [] => []
  | [c] => [c]
  | c1 :: c2 :: rest =>
    if c1 = '\r' ∧ c2 = '\n' then '\n' :: crlfSub rest
    else c1 :: crlfSub (c2 :: rest)

/-- `PexepctMixin._universal_new_lines`: replace CRLF by LF in one pass, then
append a final `'\n'` when the result is non-empty and does not already end
with one (`if out and not out.endswith('\n'): out += '\n'`). -/
def universal_new_lines (out : List Char) : List Char :=
  let out2 := crlfSub out
  if out2 ≠ [] ∧ out2.getLast? ≠ some '\n' then out2 ++ ['\n'] else out2

/-! ## `re.sub(any_PS_re, '', out)` (interpreter.py line 173) -/

/-- One left-to-right pass deleting non-overlapping occurrences of the
literal pattern `pat`, as `re.sub(pat, '', s)` does.  The fuel argument is a
step bound; with `fuel = s.length` it is never exhausted on a non-empty rest
(each step consumes at least one character), see `subAllGo_fuel`. -/
def subAllGo (pat : List Char) : Nat → List Char → List Char
  | _, [] => []
  | 0, s => s
  | fuel + 1, c :: cs =>
    if startsWith pat (c :: cs) then subAllGo pat fuel ((c :: cs).drop pat.length)
    else c :: subAllGo pat fuel cs

/-- `re.sub(pat, '', s)` for a literal pattern `pat`. -/
def subAllChars (pat s : List Char) : List Char := subAllGo pat s.length s

/-! ## `PexepctMixin._get_output` (interpreter.py lines 167-178)

The mixin state we track is `last_output : List (List Char)` (the list of
buffered chunks).  `get_output` returns the produced text together with the
new buffer state (the code calls `self._drop_output()`, clearing it). -/

/-- `PexepctMixin._get_output`: join the buffered chunks, clear the buffer,
strip the secondary-prompt pattern when one is configured (a `''`/`None`
pattern is falsy, so no stripping happens), and normalize new lines. -/
def get_output (any_PS : List Char) (last_output : List (List Char)) :
    List Char × List (List Char) :=
  let out := last_output.flatten
  let out2 := if any_PS ≠ [] then subAllChars any_PS out else out
  (universal_new_lines out2, [])

/-! ## `PexepctMixin._expect_prompt` (interpreter.py lines 134-165) -/

/-- Tail slice `s[-n:]` of Python. -/
def lastN (n : Nat) (s : List Char) : List Char := s.drop (s.length - n)

/-- The literal part of the `TimeoutException` message raised at
interpreter.py line 165, up to the `%s` placeholder. -/
def stallMsgHead : List Char :=
  "Prompt not found: the code is taking too long to finish or there is a syntax error.\nLast 1000 bytes read:\n".toList

/-- The full `TimeoutException` message: the fixed text followed by
`self.interpreter.before[-1000:]`, where `before` is the data read by the
timed-out `expect` call. -/
def stallMessage (before : List Char) : List Char := stallMsgHead ++ lastN 1000 before

/-- The settle loop of `_expect_prompt` (`while what != Timeout: ...`):
re-attempt the prompt match with the short 0.05s window, appending
`interpreter.before` to `last_output` on every iteration, including the final
timed-out one (whose `before` is all the data still unmatched).  `fuel` bounds
the number of iterations; each successful match consumes at least the
(non-empty) pattern, so `fuel = s.length` iterations always suffice — when
fuel reaches 0 the remaining stream is empty and the 0-branch coincides with
the timeout branch (see `settleGo_fuel`). -/
def settleGo (pat : List Char) : Nat → List Char → List (List Char) → List (List Char)
  | 0, s, buf => buf ++ [s]
  | fuel + 1, s, buf =>
    match splitFirst pat s with
    | none => buf ++ [s]
    | some (b, r) => settleGo pat fuel r (buf ++ [b])

/-- `PexepctMixin._expect_prompt` over the remaining child stream `s` with
buffered output `buf`.  The prompt pattern `PS1_re` is the non-empty literal
`p :: ps`.  On a first-match timeout (the pattern does not occur in `s`) the
code appends `before` to `last_output` (line 155) and then raises
`TimeoutException` (line 165); the error value carries the buffer state and
the exception message.  On a match the settle loop runs to quiescence and the
new buffer state is returned. -/
def expect_prompt (p : Char) (ps : List Char) (s : List Char)
    (buf : List (List Char)) :
    Except (List (List Char) × List Char) (List (List Char)) :=
  match splitFirst (p :: ps) s with
  | none => Except.error (buf ++ [s], stallMessage s)
  | some (b, r) => Except.ok (settleGo (p :: ps) r.length r (buf ++ [b]))

/-! ## Helper predicates used in the statements about `_get_output` -/

/-- `s` contains the two-character sequence CR LF. -/
def hasCRLF : List Char → Bool
  | c1 :: c2 :: rest => (c1 == '\r' && c2 == '\n') || hasCRLF (c2 :: rest)
  | _ => false

/-- `s` contains the two-character sequence CR CR. -/
def hasCRCR : List Char → Bool
  | c1 :: c2 :: rest => (c1 == '\r' && c2 == '\r') || hasCRCR (c2 :: rest)
  | _ => false

/-! ## `PexepctMixin.interact` (interpreter.py lines 100-116)

The world is a pair `attrs × rest`: the termios attributes of the child's
terminal (`termios.tcgetattr(self.interpreter.child_fd)`) and the rest of the
mutable world.  `sendFn` models `self.interpreter.send` and `interactFn`
models `self.interpreter.interact` (including the cooked-mode switching its
input filter performs, which may change the attributes); both are arbitrary
effectful operations which may raise.  A raised exception carries the world
in which it was raised.  The `finally:` block restores the attributes
captured on entry with `termios.tcsetattr(..., attr)` on both exit paths. -/

/-- The terminal attributes after an `interact` call, on either exit path. -/
def attrsOf {E A W : Type} : Except (E × (A × W)) (A × W) → A
  | Except.ok w => w.1
  | Except.error (_, w) => w.1

/-- The `finally:` block of `PexepctMixin.interact`:
`termios.tcsetattr(self.interpreter.child_fd, termios.TCSANOW, attr)` runs
whether the protected body returned normally or raised, and the exception, if
any, is then re-raised. -/
def restoreAttrs {E A W : Type} (attr : A) :
    Except (E × (A × W)) (A × W) → Except (E × (A × W)) (A × W)
  | Except.ok w' => Except.ok (attr, w'.2)
  | Except.error (e, w') => Except.error (e, (attr, w'.2))

/-- `PexepctMixin.interact`: capture the attributes, optionally prime the
child (`if send: self.interpreter.send(send)` — an empty string is falsy),
run the interactive pass-through, and restore the captured attributes in the
`finally:` block whether the body returned or raised. -/
def interact {E A W : Type} (send : List Char)
    (sendFn : List Char → A × W → Except (E × (A × W)) (A × W))
    (interactFn : A × W → Except (E × (A × W)) (A × W))
    (w : A × W) : Except (E × (A × W)) (A × W) :=
  let attr := w.1
  let body :=
    if send ≠ [] then
      match sendFn send w with
      | Except.ok w' => interactFn w'
      | Except.error ew => Except.error ew
    else interactFn w
  restoreAttrs attr body

/-! ## `Concern` and `ConcernComposite` (concern.py)

`concern.py` patches `ConcernComposite` so that every public lifecycle method
`X` becomes `for concern in self.concerns: getattr(concern, X)(*args)` —
return values are discarded and exceptions are not caught.  A hook invocation
is modelled by its observable effects (`effects`), its discarded return value
(`ret`) and the exception it raises after those effects, if any (`err`). -/

/-- The public lifecycle methods of `Concern` that the patch loop overrides
on `ConcernComposite`. -/
inductive HookName
  | start_run | end_run | skip_example | start_example | start_interact
  | finish_interact | user_aborted | crashed | success | failure
deriving DecidableEq

/-- Result of calling one hook on one observer: the side effects it performs,
the return value the composite discards, and the exception it raises
(after its effects), if any. -/
structure HookRes where
  effects : List Nat
  ret : Option Nat
  err : Option Nat
deriving DecidableEq

/-- One registered observer: its behaviour for every lifecycle method and
argument tuple (arguments are modelled opaquely). -/
structure PyConcern where
  hook : HookName → List Nat → HookRes

/-- The body installed by `_patch` for each method of `ConcernComposite`:
`for concern in self.concerns: getattr(concern, method_name)(*args)`.
Effects accumulate in iteration order of `self.concerns`; the return value of
each call is dropped; an exception propagates immediately, so observers after
the raising one are not invoked, and the composite itself returns `None`
(no value beyond the effects). -/
def for_each_concern_do (m : HookName) (args : List Nat) :
    List PyConcern → List Nat × Option Nat
  | [] => ([], none)
  | c :: cs =>
    let r := c.hook m args
    match r.err with
    | some e => (r.effects, some e)
    | none =>
      let rest := for_each_concern_do m args cs
      (r.effects ++ rest.1, rest.2)

/-! ## `byexample.py`: registry, language check, main loop -/

/-- The language keys of `registry['interpreters']` and
`registry['parsers']` — as built by `load_modules`, each stored object's
`language` attribute is exactly the key it is indexed under. -/
structure Registry where
  interpLangs : List String
  parserLangs : List String

/-- `get_allowed_languages` (byexample.py lines 111-122): the available set is
the union of the interpreters' and the parsers' languages; if some selected
language is not available, a configuration error is raised (modelled by the
error carrying the `not_found` set); otherwise `set(selected)` is returned. -/
def get_allowed_languages (r : Registry) (selected : List String) :
    Except (List String) (List String) :=
  let available := r.interpLangs ++ r.parserLangs
  let sel := selected.dedup
  let not_found := sel.filter (fun l => ¬ available.contains l)
  if not_found ≠ [] then Except.error not_found else Except.ok sel

/-- The command-line arguments `main` consumes (byexample.py lines 132-175). -/
structure Args where
  files : List String
  skip : List String
  languages : List String
  fail_fast : Bool
  dry : Bool

/-- byexample.py lines 140-141:
`allowed_files = set(args.files) - set(args.skip)` followed by
`testfiles = [f for f in args.files if f in allowed_files]`. -/
def testfiles (files skip : List String) : List String :=
  let allowed_files := files.dedup.filter (fun f => ¬ skip.contains f)
  files.filter (fun f => allowed_files.contains f)

/-- The per-file loop of `main` (byexample.py lines 157-173), returning the
final `exit_status` and the list of files actually processed, in order.  Each
file is processed by `finder.get_examples_from_file`; under `--dry` the run
is skipped (`continue`).  Otherwise the file's `(failed, aborted_or_crashed)`
result raises `exit_status` to at least 1 on failure and to 2 on
abort/crash, and with `FAIL_FAST` the loop breaks after the first file that
failed or aborted/crashed. -/
def runLoop (ff dry : Bool) (results : String → Bool × Bool) :
    Nat → List String → Nat × List String
  | acc, [] => (acc, [])
  | acc, f :: fs =>
    if dry then
      let rest := runLoop ff dry results acc fs
      (rest.1, f :: rest.2)
    else
      let r := results f
      let s1 := if r.1 then max acc 1 else acc
      let s2 := if r.2 then max s1 2 else s1
      if ff ∧ (r.1 ∨ r.2) then (s2, [f])
      else
        let rest := runLoop ff dry results s2 fs
        (rest.1, f :: rest.2)

/-- `main` (byexample.py lines 132-175) after plugin discovery: validate the
selected languages — a failure there propagates out before the file loop
runs — then iterate over `testfiles` accumulating the exit status.
`results f` is the `(failed, aborted_or_crashed)` pair `runner.run` returns
for file `f`. -/
def mainFn (r : Registry) (a : Args) (results : String → Bool × Bool) :
    Except (List String) (Nat × List String) :=
  match get_allowed_languages r a.languages with
  | Except.error e => Except.error e
  | Except.ok _ =>
    Except.ok (runLoop a.fail_fast a.dry results 0 (testfiles a.files a.skip))

/-- Severity of one file's run result, as accumulated by `main`'s loop. -/
def sev (r : Bool × Bool) : Nat :=
  max (if r.1 then 1 else 0) (if r.2 then 2 else 0)

/-! ## `load_modules` (byexample.py lines 71-109), one capability kind

Python objects are compared by identity: a class object and an instance
object are never the same object, hence never equal.  `PyClass` carries the
class's object identity `cid` and the identity value (`language` / `target`)
its instances expose; `PyInst` carries the instance's object identity `iid`
and its class. -/

/-- A plugin class discovered by `inspect.getmembers`. -/
structure PyClass where
  cid : Nat
  lang : String
deriving DecidableEq

/-- An instance created by `klass(verbosity, encoding)`. -/
structure PyInst where
  iid : Nat
  cls : PyClass
deriving DecidableEq

/-- A Python object reference, compared as `set` membership compares default
objects: by identity, so a class is never equal to an instance. -/
inductive PyObj
  | ofCls (c : PyClass)
  | ofInst (i : PyInst)
deriving DecidableEq

/-- State of one registry mapping while `load_modules` scans modules:
the container dict (key → instance, with dict key-replacement semantics) and
the number of instantiations performed so far, which doubles as the object
identity of the next instance created. -/
structure LoadState where
  container : List (String × PyInst)
  nextIid : Nat
deriving DecidableEq

/-- `container[key] = obj`: replace the value at an existing key, else add
the binding. -/
def dictSet (k : String) (v : PyInst) : List (String × PyInst) → List (String × PyInst)
  | [] => [(k, v)]
  | (k', v') :: rest => if k' = k then (k, v) :: rest else (k', v') :: dictSet k v rest

/-- byexample.py lines 96-107 for one scanned module and one capability kind:
`klasses_found = set(klasses_found) - set(container.values())` — a set of
class objects minus a set of instance objects — then instantiate each
remaining class and index the fresh instance under its identity value. -/
def processModule (found : List PyClass) (st : LoadState) : LoadState :=
  let vals := st.container.map (fun p => PyObj.ofInst p.2)
  let ks := found.filter (fun k => ¬ vals.contains (PyObj.ofCls k))
  ks.foldl
    (fun s k =>
      { container := dictSet k.lang { iid := s.nextIid, cls := k } s.container,
        nextIid := s.nextIid + 1 })
    st

/-- `load_modules` for one capability kind: scan the modules in order,
starting from the empty container. -/
def load_modules (mods : List (List PyClass)) : LoadState :=
  mods.foldl (fun st found => processModule found st) { container := [], nextIid := 0 }


/-- The prefix of the file list that the loop of `main` actually processes:
all of it, except that with `FAIL_FAST` the loop stops after the first file
that failed or aborted/crashed (summary of the break condition at
byexample.py line 172, used to state the loop lemmas). -/
def procList (ff : Bool) (res : String → Bool × Bool) : List String → List String
  | [] => []
  | f :: fs => if ff ∧ ((res f).1 ∨ (res f).2) then [f] else f :: procList ff res fs

theorem startsWith_append (pat r : List Char) : startsWith pat (pat ++ r) = true := by
  induction pat with
  | nil => rfl
  | cons p ps ih => simp [startsWith, ih]

theorem startsWith_eq_true {pat s : List Char} (h : startsWith pat s = true) :
    ∃ r, s = pat ++ r := by
  induction pat generalizing s with
  | nil => exact ⟨s, rfl⟩
  | cons p ps ih =>
    cases s with
    | nil => simp [startsWith] at h
    | cons c cs =>
      simp only [startsWith] at h
      split at h
      · obtain ⟨r, hr⟩ := ih h
        rename_i hpc
        exact ⟨r, by simp [hr, hpc]⟩
      · simp at h

theorem splitFirst_nil (pat : List Char) : splitFirst pat [] = none := rfl
theorem splitFirst_straddle {p : Char} {ps b : List Char} (r : List Char)
    (hb : p ∉ b) : splitFirst (p :: ps) (b ++ (p :: ps) ++ r) = some (b, r) := by
  induction b with
  | nil =>
    simp only [List.nil_append, splitFirst]
    rw [if_pos (by simpa using startsWith_append (p :: ps) r)]
    simp [List.drop_succ_cons, List.drop_left]
  | cons c b' ih =>
    have hpc : ¬ p = c := fun h => hb (h ▸ List.mem_cons_self c b')
    have hb' : p ∉ b' := fun h => hb (List.mem_cons_of_mem c h)
    simp only [List.append_assoc, List.cons_append] at ih
    simp [splitFirst, startsWith, hpc]
    rw [ih hb']

theorem settleGo_stream (p : Char) (ps : List Char) (bs : List (List Char)) :
    ∀ (buf : List (List Char)) (fuel : Nat),
      (∀ b ∈ bs, p ∉ b) →
      ((bs.map (fun b => b ++ (p :: ps))).flatten).length ≤ fuel →
      settleGo (p :: ps) fuel ((bs.map (fun b => b ++ (p :: ps))).flatten) buf
        = buf ++ bs ++ [[]] := by
  induction bs with
  | nil =>
    intro buf fuel _ _
    cases fuel <;> simp [settleGo, splitFirst]
  | cons b bs' ih =>
    intro buf fuel hb hf
    have hstream : ((b :: bs').map (fun x => x ++ (p :: ps))).flatten
        = b ++ (p :: ps) ++ ((bs'.map (fun x => x ++ (p :: ps))).flatten) := by
      simp [List.flatten_cons]
    rw [hstream] at hf ⊢
    cases fuel with
    | zero => simp [List.length_append] at hf
    | succ f =>
      have hpb : p ∉ b := hb b (List.mem_cons_self _ _)
      rw [settleGo, splitFirst_straddle _ hpb]
      show settleGo (p :: ps) f (List.map (fun x => x ++ p :: ps) bs').flatten (buf ++ [b])
          = buf ++ b :: bs' ++ [[]]
      rw [ih (buf ++ [b]) f (fun x hx => hb x (List.mem_cons_of_mem _ hx))
            (by simp [List.length_append] at hf ⊢; omega)]
      simp

theorem splitFirst_some : ∀ {s b r : List Char} (pat : List Char),
    splitFirst pat s = some (b, r) → s = b ++ pat ++ r := by
  intro s
  induction s with
  | nil => intro b r pat h; simp [splitFirst] at h
  | cons c cs ih =>
    intro b r pat h
    rw [splitFirst] at h
    split at h
    · rename_i hs
      obtain ⟨r', hr'⟩ := startsWith_eq_true hs
      obtain ⟨hb, hr⟩ := Prod.mk.inj (Option.some.inj h)
      subst hb
      have hdrop : (c :: cs).drop pat.length = r' := by
        rw [hr']
        exact List.drop_left _ _
      rw [← hr, hdrop, hr']
      simp
    · cases hsp : splitFirst pat cs with
      | some br =>
        rcases br with ⟨b', r'⟩
        rw [hsp] at h
        simp only [Option.some.injEq, Prod.mk.injEq] at h
        obtain ⟨hb, hr⟩ := h
        subst hr
        rw [← hb, ih pat hsp]
        simp
      | none => rw [hsp] at h; simp at h

theorem subAllGo_fuel (pat : List Char) (hpat : pat ≠ []) :
    ∀ (fuel : Nat) (s : List Char), s.length ≤ fuel →
      subAllGo pat fuel s = subAllGo pat s.length s
  | fuel, [], _ => by cases fuel <;> rfl
  | 0, c :: cs, h => by simp at h
  | fuel + 1, c :: cs, h => by
    have hlen : cs.length + 1 ≤ fuel + 1 := by simpa using h
    rw [subAllGo]
    rw [show (c :: cs).length = cs.length + 1 from rfl, subAllGo]
    split
    · rename_i hs
      obtain ⟨r', hr'⟩ := startsWith_eq_true hs
      have hdrop : (c :: cs).drop pat.length = r' := by
        rw [hr']; exact List.drop_left _ _
      rw [hdrop]
      have hr'len : r'.length ≤ cs.length := by
        have hl : (c :: cs).length = pat.length + r'.length := by rw [hr']; simp
        simp only [List.length_cons] at hl
        cases pat with
        | nil => exact absurd rfl hpat
        | cons q qs => simp only [List.length_cons] at hl; omega
      rw [subAllGo_fuel pat hpat fuel r' (by omega)]
      rw [subAllGo_fuel pat hpat cs.length r' hr'len]
    · rw [subAllGo_fuel pat hpat fuel cs (by omega)]
termination_by fuel _ _ => fuel

theorem settleGo_fuel (p : Char) (ps : List Char) :
    ∀ (fuel : Nat) (s : List Char) (buf : List (List Char)), s.length ≤ fuel →
      settleGo (p :: ps) fuel s buf = settleGo (p :: ps) s.length s buf
  | fuel, [], buf, _ => by cases fuel <;> simp [settleGo, splitFirst]
  | 0, c :: cs, buf, h => by simp at h
  | fuel + 1, c :: cs, buf, h => by
    have hlen : cs.length + 1 ≤ fuel + 1 := by simpa using h
    rw [settleGo]
    rw [show (c :: cs).length = cs.length + 1 from rfl, settleGo]
    cases hsp : splitFirst (p :: ps) (c :: cs) with
    | none => rfl
    | some br =>
      rcases br with ⟨b, r⟩
      have hdec := splitFirst_some (p :: ps) hsp
      have hrlen : r.length ≤ cs.length := by
        have hl : (c :: cs).length = b.length + (p :: ps).length + r.length := by
          rw [hdec]; simp; omega
        simp only [List.length_cons] at hl
        omega
      show settleGo (p :: ps) fuel r (buf ++ [b])
          = settleGo (p :: ps) cs.length r (buf ++ [b])
      rw [settleGo_fuel p ps fuel r (buf ++ [b]) (by omega)]
      rw [settleGo_fuel p ps cs.length r (buf ++ [b]) hrlen]
termination_by fuel _ _ _ => fuel

/-- C2: on a stream of N consecutive prompt markers, each preceded by
prompt-free bytes, followed by silence, one `_expect_prompt` call appends the
bytes preceding each matched prompt to the buffer (plus the final timed-out
read, which is empty) and stops at the first settle-window timeout, so the
subsequent `_get_output` yields the single chunk spanning all N prompts
rather than N separate outputs. -/
theorem expect_prompt_settle (p : Char) (ps any_PS : List Char)
    (bs : List (List Char)) (hN : bs ≠ []) (hb : ∀ b ∈ bs, p ∉ b) :
    expect_prompt p ps ((bs.map (fun b => b ++ (p :: ps))).flatten) []
        = Except.ok (bs ++ [[]])
    ∧ (bs ++ [[]]).flatten = bs.flatten
    ∧ (get_output any_PS (bs ++ [[]])).1 = (get_output any_PS [bs.flatten]).1 := by
  refine ⟨?_, by simp, by simp [get_output]⟩
  cases bs with
  | nil => exact absurd rfl hN
  | cons b bs' =>
    have hpb : p ∉ b := hb b (List.mem_cons_self _ _)
    have hstream : ((b :: bs').map (fun x => x ++ (p :: ps))).flatten
        = b ++ (p :: ps) ++ ((bs'.map (fun x => x ++ (p :: ps))).flatten) := by
      simp [List.flatten_cons]
    rw [hstream, expect_prompt, splitFirst_straddle _ hpb]
    show Except.ok (settleGo (p :: ps) (List.map (fun x => x ++ p :: ps) bs').flatten.length
        (List.map (fun x => x ++ p :: ps) bs').flatten ([] ++ [b])) = _
    rw [settleGo_stream p ps bs' ([] ++ [b]) _
          (fun x hx => hb x (List.mem_cons_of_mem _ hx)) le_rfl]
    simp

/-- C3: when the primary prompt pattern does not match the data read before
the deadline, `_expect_prompt` raises a `TimeoutException` whose message is
the fixed text followed by the last 1000 bytes read — for every stream,
including the empty one — and the fixed text states both possible causes:
the code taking too long to finish, and a syntax error (incomplete input). -/
theorem expect_prompt_stall (p : Char) (ps s : List Char) (buf : List (List Char))
    (h : splitFirst (p :: ps) s = none) :
    expect_prompt p ps s buf = Except.error (buf ++ [s], stallMessage s)
    ∧ (∃ u v, stallMessage s = u ++ "taking too long to finish".toList ++ v)
    ∧ (∃ u v, stallMessage s = u ++ "syntax error".toList ++ v)
    ∧ (∃ u, stallMessage s = u ++ lastN 1000 s) := by
  refine ⟨by rw [expect_prompt, h], ?_, ?_, ⟨stallMsgHead, rfl⟩⟩
  · refine ⟨"Prompt not found: the code is ".toList,
      " or there is a syntax error.\nLast 1000 bytes read:\n".toList ++ lastN 1000 s, ?_⟩
    show stallMsgHead ++ lastN 1000 s = _
    rw [show stallMsgHead = "Prompt not found: the code is ".toList
        ++ "taking too long to finish".toList
        ++ " or there is a syntax error.\nLast 1000 bytes read:\n".toList from by decide]
    simp
  · refine ⟨"Prompt not found: the code is taking too long to finish or there is a ".toList,
      ".\nLast 1000 bytes read:\n".toList ++ lastN 1000 s, ?_⟩
    show stallMsgHead ++ lastN 1000 s = _
    rw [show stallMsgHead
        = "Prompt not found: the code is taking too long to finish or there is a ".toList
        ++ "syntax error".toList
        ++ ".\nLast 1000 bytes read:\n".toList from by decide]
    simp

/-- C9: when `_expect_prompt` raises the stall error on timeout, the bytes
read before the deadline have already been appended to the session buffer
and the buffer is not cleared by the error: the error state is the previous
buffer with the read data appended, and a subsequent `_get_output` sees the
prior output together with those bytes. -/
theorem expect_prompt_keeps_buffer (p : Char) (ps s : List Char)
    (buf : List (List Char)) (h : splitFirst (p :: ps) s = none) :
    expect_prompt p ps s buf = Except.error (buf ++ [s], stallMessage s)
    ∧ ∀ any_PS, (get_output any_PS (buf ++ [s])).1
        = (get_output any_PS [buf.flatten ++ s]).1 := by
  refine ⟨by rw [expect_prompt, h], fun any_PS => ?_⟩
  simp [get_output]

/-- C6: `PexepctMixin.interact` restores the terminal attributes captured at
entry on every exit path — normal return of the interactive session or an
exception raised while priming the child or during the session — for every
send text and every behaviour of the send and session bodies. -/
theorem interact_restores_attrs {E A W : Type} (send : List Char)
    (sendFn : List Char → A × W → Except (E × (A × W)) (A × W))
    (interactFn : A × W → Except (E × (A × W)) (A × W)) (w : A × W) :
    attrsOf (interact send sendFn interactFn w) = w.1 := by
  show attrsOf (restoreAttrs w.1 _) = w.1
  generalize hbody : (if send ≠ [] then _ else _ : Except (E × (A × W)) (A × W)) = body
  cases body with
  | ok w' => rfl
  | error ew => cases ew; rfl

/-- C4: for every lifecycle method and every call, `ConcernComposite`
invokes that method on every registered observer in registration order,
propagating no return value: when no observer raises, the composite's
behaviour is exactly the concatenation of all observers' effects in order;
when an observer raises, the observers before it have run, its exception
propagates uncaught, and the observers after it are never invoked. -/
theorem concern_fan_out (m : HookName) (args : List Nat) (cs : List PyConcern) :
    ((∀ c ∈ cs, (c.hook m args).err = none) →
      for_each_concern_do m args cs
        = ((cs.map (fun c => (c.hook m args).effects)).flatten, none))
    ∧ (∀ (pre : List PyConcern) (c : PyConcern) (post : List PyConcern) (e : Nat),
        cs = pre ++ c :: post →
        (∀ c' ∈ pre, (c'.hook m args).err = none) →
        (c.hook m args).err = some e →
        for_each_concern_do m args cs
          = ((pre.map (fun c' => (c'.hook m args).effects)).flatten
              ++ (c.hook m args).effects, some e)) := by
  constructor
  · intro h
    induction cs with
    | nil => rfl
    | cons c cs' ih =>
      have hc : (c.hook m args).err = none := h c (List.mem_cons_self _ _)
      rw [for_each_concern_do]
      simp only [hc]
      rw [ih (fun c' hc' => h c' (List.mem_cons_of_mem _ hc'))]
      simp
  · intro pre c post e hcs hpre hc
    subst hcs
    induction pre with
    | nil =>
      rw [List.nil_append, for_each_concern_do]
      simp [hc]
    | cons p' pre' ih =>
      have hp' : (p'.hook m args).err = none := hpre p' (List.mem_cons_self _ _)
      rw [List.cons_append, for_each_concern_do]
      simp only [hp']
      rw [ih (fun c' hc' => hpre c' (List.mem_cons_of_mem _ hc'))]
      simp

theorem crlfSub_ne_nil {s : List Char} (h : s ≠ []) : crlfSub s ≠ [] := by
  induction s using crlfSub.induct with
  | case1 => exact absurd rfl h
  | case2 c => simp [crlfSub]
  | case3 c1 c2 rest hc ih => simp [crlfSub, hc]
  | case4 c1 c2 rest hc ih => simp [crlfSub, hc]

theorem getLast?_cons_ne {a : Char} {l : List Char} (h : l ≠ []) :
    (a :: l).getLast? = l.getLast? := by
  cases l with
  | nil => exact absurd rfl h
  | cons b t => simp [List.getLast?_cons_cons]

theorem crlfSub_getLast? (s : List Char) : (crlfSub s).getLast? = s.getLast? := by
  induction s using crlfSub.induct with
  | case1 => rfl
  | case2 c => rfl
  | case3 c1 c2 rest hc ih =>
    obtain ⟨h1, h2⟩ := hc
    subst h1; subst h2
    rw [crlfSub, if_pos ⟨rfl, rfl⟩]
    cases hr : rest with
    | nil => simp [crlfSub]
    | cons x xs =>
      rw [getLast?_cons_ne (crlfSub_ne_nil (by simp [hr]))]
      rw [hr] at ih
      rw [ih]
      simp [List.getLast?_cons_cons]
  | case4 c1 c2 rest hc ih =>
    rw [crlfSub, if_neg hc]
    rw [getLast?_cons_ne (crlfSub_ne_nil (by simp))]
    rw [ih]
    simp [List.getLast?_cons_cons]

theorem crlfSub_head {s : List Char} (h : (crlfSub s).head? = some '\n') :
    s.head? = some '\n' ∨ ∃ t, s = '\r' :: '\n' :: t := by
  match s with
  | [] => simp [crlfSub] at h
  | [c] => simp [crlfSub] at h; simp [h]
  | c1 :: c2 :: rest =>
    by_cases hc : c1 = '\r' ∧ c2 = '\n'
    · exact Or.inr ⟨rest, by rw [hc.1, hc.2]⟩
    · rw [crlfSub, if_neg hc] at h
      simp at h
      simp [h]

theorem hasCRCR_tail {a : Char} {t : List Char} (h : hasCRCR (a :: t) = false) :
    hasCRCR t = false := by
  cases t with
  | nil => rfl
  | cons b t' =>
    rw [hasCRCR] at h
    exact (Bool.or_eq_false_iff.mp h).2

theorem hasCRLF_cons_tail {a : Char} {t : List Char} (h : hasCRLF (a :: t) = false) :
    hasCRLF t = false := by
  cases t with
  | nil => rfl
  | cons b t' =>
    rw [hasCRLF] at h
    exact (Bool.or_eq_false_iff.mp h).2

theorem hasCRLF_crlfSub {s : List Char} (h : hasCRCR s = false) :
    hasCRLF (crlfSub s) = false := by
  induction s using crlfSub.induct with
  | case1 => rfl
  | case2 c => rfl
  | case3 c1 c2 rest hc ih =>
    obtain ⟨h1, h2⟩ := hc
    subst h1; subst h2
    rw [crlfSub, if_pos ⟨rfl, rfl⟩]
    have hrest : hasCRCR rest = false := hasCRCR_tail (hasCRCR_tail h)
    cases hcs : crlfSub rest with
    | nil => rfl
    | cons x xs =>
      rw [hasCRLF]
      have := ih hrest
      rw [hcs] at this
      simp [this]
  | case4 c1 c2 rest hc ih =>
    rw [crlfSub, if_neg hc]
    have hrest : hasCRCR (c2 :: rest) = false := hasCRCR_tail h
    have hsub := ih hrest
    cases hcs : crlfSub (c2 :: rest) with
    | nil => rfl
    | cons x xs =>
      rw [hcs] at hsub
      rw [hasCRLF]
      refine Bool.or_eq_false_iff.mpr ⟨?_, hsub⟩
      by_cases hx : c1 = '\r' ∧ x = '\n'
      · exfalso
        have hhead : (crlfSub (c2 :: rest)).head? = some '\n' := by simp [hcs, hx.2]
        rcases crlfSub_head hhead with hh | ⟨t, ht⟩
        · simp at hh
          exact hc ⟨hx.1, hh⟩
        · have hc2 : c2 = '\r' := by
            have := congrArg List.head? ht
            simpa using this
          rw [hasCRCR, hx.1, hc2] at h
          simp at h
      · rcases not_and_or.mp hx with hx1 | hx2
        · simp [hx1]
        · simp [hx2]

theorem hasCRLF_append_nl : ∀ (t : List Char), hasCRLF t = false →
    t.getLast? ≠ some '\r' → hasCRLF (t ++ ['\n']) = false
  | [], _, _ => rfl
  | [a], _, hl => by
      have ha : ¬ a = '\r' := by simpa using hl
      simp [hasCRLF, ha]
  | a :: b :: t', h, hl => by
      have h1 := Bool.or_eq_false_iff.mp (by rw [hasCRLF] at h; exact h)
      have hl' : (b :: t').getLast? ≠ some '\r' := by
        rw [List.getLast?_cons_cons] at hl
        exact hl
      have hrec := hasCRLF_append_nl (b :: t') h1.2 hl'
      simp only [List.cons_append]
      rw [hasCRLF]
      refine Bool.or_eq_false_iff.mpr ⟨h1.1, ?_⟩
      simp only [List.cons_append] at hrec
      exact hrec

theorem universal_new_lines_no_crlf {s : List Char} (h1 : hasCRCR s = false)
    (h2 : s.getLast? ≠ some '\r') : hasCRLF (universal_new_lines s) = false := by
  rw [universal_new_lines]
  split
  · exact hasCRLF_append_nl _ (hasCRLF_crlfSub h1) (by rw [crlfSub_getLast?]; exact h2)
  · exact hasCRLF_crlfSub h1

theorem universal_new_lines_getLast {s : List Char}
    (h : universal_new_lines s ≠ []) :
    (universal_new_lines s).getLast? = some '\n' := by
  simp only [universal_new_lines] at h ⊢
  split at h <;> rename_i hcond
  · rw [if_pos hcond, List.getLast?_concat]
  · rw [if_neg hcond]
    rcases not_and_or.mp hcond with hnil | hlast
    · exact absurd (not_not.mp hnil) h
    · exact not_not.mp hlast

theorem splitFirst_cons_none {pat : List Char} {c : Char} {cs : List Char}
    (h : splitFirst pat (c :: cs) = none) :
    startsWith pat (c :: cs) = false ∧ splitFirst pat cs = none := by
  by_cases hs : startsWith pat (c :: cs) = true
  · rw [splitFirst, if_pos hs] at h
    exact absurd h (by simp)
  · have hs' : startsWith pat (c :: cs) = false := by simpa using hs
    refine ⟨hs', ?_⟩
    rw [splitFirst, if_neg (by simp [hs'])] at h
    cases hsp : splitFirst pat cs with
    | none => rfl
    | some br =>
      rw [hsp] at h
      cases br
      simp at h

theorem subAllGo_of_none : ∀ (s : List Char) (pat : List Char) (fuel : Nat),
    splitFirst pat s = none → subAllGo pat fuel s = s
  | [], pat, fuel, _ => by cases fuel <;> rfl
  | c :: cs, pat, 0, _ => rfl
  | c :: cs, pat, fuel + 1, h => by
      obtain ⟨hs, hrest⟩ := splitFirst_cons_none h
      rw [subAllGo, if_neg (by simp [hs])]
      rw [subAllGo_of_none cs pat fuel hrest]

/-- C1 (amended): `_get_output` clears the buffer, returns text ending with a
line terminator whenever non-empty, and depends only on the concatenation of
the buffered chunks; the secondary-prompt stripping is one leftmost pass that
leaves occurrence-free content unchanged, and the CRLF normalization is one
leftmost pass, which eliminates every CRLF whenever the content has no CR-CR
pair and no trailing CR.  (The unqualified "exactly one terminator" and
"fully normalized CRLF" of the original claim fail, see the counterexample.) -/
theorem get_output_spec (any_PS : List Char) (buf : List (List Char)) :
    (get_output any_PS buf).2 = []
    ∧ ((get_output any_PS buf).1 ≠ [] → (get_output any_PS buf).1.getLast? = some '\n')
    ∧ get_output any_PS buf = get_output any_PS [buf.flatten]
    ∧ (∀ s : List Char, hasCRCR s = false → s.getLast? ≠ some '\r' →
        hasCRLF (universal_new_lines s) = false)
    ∧ (∀ pat s : List Char, splitFirst pat s = none → subAllChars pat s = s) :=
  ⟨rfl, fun h => universal_new_lines_getLast h, by simp [get_output],
    fun _ h1 h2 => universal_new_lines_no_crlf h1 h2,
    fun pat s h => subAllGo_of_none s pat s.length h⟩

/-- C1 counterexample: with no secondary prompt configured and the buffer
holding the chunk CR CR LF LF, `_get_output` returns CR LF LF — the
single-pass CRLF substitution leaves a CRLF in the result, and the result
ends with two line terminators, refuting "every CRLF normalized" and
"ends with exactly one terminator". -/
theorem get_output_cex :
    (get_output [] [['\r', '\r', '\n', '\n']]).1 = ['\r', '\n', '\n']
    ∧ hasCRLF (get_output [] [['\r', '\r', '\n', '\n']]).1 = true
    ∧ (∃ u, (get_output [] [['\r', '\r', '\n', '\n']]).1 = u ++ ['\n', '\n']) :=
  ⟨by decide, by decide, ⟨['\r'], by decide⟩⟩

theorem sev_eq_zero {r : Bool × Bool} : sev r = 0 ↔ r.1 = false ∧ r.2 = false := by
  rcases r with ⟨a, b⟩
  cases a <;> cases b <;> simp [sev]

theorem sev_eq_two {r : Bool × Bool} : sev r = 2 ↔ r.2 = true := by
  rcases r with ⟨a, b⟩
  cases a <;> cases b <;> simp [sev]

theorem sev_le_two (r : Bool × Bool) : sev r ≤ 2 := by
  rcases r with ⟨a, b⟩
  cases a <;> cases b <;> simp [sev]

theorem sevFold_le (rs : List (Bool × Bool)) : (rs.map sev).foldr max 0 ≤ 2 := by
  induction rs with
  | nil => simp
  | cons r rs' ih => simpa using ⟨sev_le_two r, ih⟩

theorem sevFold_zero (rs : List (Bool × Bool)) :
    (rs.map sev).foldr max 0 = 0 ↔ ∀ r ∈ rs, r.1 = false ∧ r.2 = false := by
  induction rs with
  | nil => simp
  | cons r rs' ih =>
    simp only [List.map_cons, List.foldr_cons, Nat.max_eq_zero_iff, ih,
      List.forall_mem_cons, sev_eq_zero]

theorem sevFold_two (rs : List (Bool × Bool)) :
    (rs.map sev).foldr max 0 = 2 ↔ ∃ r ∈ rs, r.2 = true := by
  induction rs with
  | nil => simp
  | cons r rs' ih =>
    simp only [List.map_cons, List.foldr_cons]
    constructor
    · intro h
      have h1 := sev_le_two r
      have h2 := sevFold_le rs'
      have hor : sev r = 2 ∨ (rs'.map sev).foldr max 0 = 2 := by omega
      rcases hor with hs | hm
      · exact ⟨r, List.mem_cons_self _ _, sev_eq_two.mp hs⟩
      · obtain ⟨r', hr', h2'⟩ := ih.mp hm
        exact ⟨r', List.mem_cons_of_mem _ hr', h2'⟩
    · rintro ⟨r', hr', h2'⟩
      rcases List.mem_cons.mp hr' with rfl | hmem
      · have hs : sev r' = 2 := sev_eq_two.mpr h2'
        have h2 := sevFold_le rs'
        omega
      · have hm : (rs'.map sev).foldr max 0 = 2 := ih.mpr ⟨r', hmem, h2'⟩
        have h1 := sev_le_two r
        omega

theorem sevFold_one (rs : List (Bool × Bool)) :
    (rs.map sev).foldr max 0 = 1 ↔
      ((∃ r ∈ rs, r.1 = true) ∧ ∀ r ∈ rs, r.2 = false) := by
  have hle := sevFold_le rs
  have h0 := sevFold_zero rs
  have h2 := sevFold_two rs
  constructor
  · intro h1
    have hnot2 : ¬ ∃ r ∈ rs, r.2 = true := fun hx => by
      have := h2.mpr hx
      omega
    have hall2 : ∀ r ∈ rs, r.2 = false := fun r hr => by
      cases hb : r.2 with
      | false => rfl
      | true => exact absurd (⟨r, hr, hb⟩ : ∃ x ∈ rs, x.2 = true) hnot2
    have hnot0 : ¬ ∀ r ∈ rs, r.1 = false ∧ r.2 = false := fun hx => by
      have := h0.mpr hx
      omega
    push_neg at hnot0
    obtain ⟨r, hr, hne⟩ := hnot0
    refine ⟨⟨r, hr, ?_⟩, hall2⟩
    cases ha : r.1 with
    | true => rfl
    | false => exact absurd (hall2 r hr) (hne ha)
  · rintro ⟨⟨r, hr, hr1⟩, hall⟩
    have hne0 : ¬ (rs.map sev).foldr max 0 = 0 := fun hf => by
      have hx := (h0.mp hf r hr).1
      rw [hr1] at hx
      simp at hx
    have hne2 : ¬ (rs.map sev).foldr max 0 = 2 := fun hf => by
      obtain ⟨r', hr', hr2⟩ := h2.mp hf
      have hx := hall r' hr'
      rw [hr2] at hx
      simp at hx
    omega

theorem runLoop_acc (ff : Bool) (res : String → Bool × Bool) :
    ∀ (fs : List String) (acc : Nat),
      runLoop ff false res acc fs
        = (max acc (((procList ff res fs).map (fun f => sev (res f))).foldr max 0),
           procList ff res fs)
  | [], acc => by simp [runLoop, procList]
  | f :: fs, acc => by
    have hs2 : (if (res f).2 then max (if (res f).1 then max acc 1 else acc) 2
        else (if (res f).1 then max acc 1 else acc)) = max acc (sev (res f)) := by
      rcases hr : res f with ⟨a, b⟩
      cases a <;> cases b <;> simp [sev]
      omega
    rw [runLoop, procList]
    simp only [Bool.false_eq_true, if_false]
    by_cases hbr : ff ∧ ((res f).1 ∨ (res f).2)
    · rw [if_pos hbr, if_pos hbr]
      simp only [List.map_cons, List.map_nil, List.foldr_cons, List.foldr_nil]
      rw [hs2]
      simp
    · rw [if_neg hbr, if_neg hbr]
      rw [runLoop_acc ff res fs _]
      simp only [List.map_cons, List.foldr_cons]
      rw [hs2]
      rw [Nat.max_assoc]

theorem runLoop_dry (ff : Bool) (res : String → Bool × Bool) :
    ∀ (fs : List String) (acc : Nat), runLoop ff true res acc fs = (acc, fs)
  | [], acc => rfl
  | f :: fs, acc => by
    rw [runLoop]
    simp [runLoop_dry ff res fs acc]

theorem procList_no_ff (res : String → Bool × Bool) :
    ∀ fs : List String, procList false res fs = fs
  | [] => rfl
  | f :: fs => by simp [procList, procList_no_ff res fs]

theorem get_allowed_languages_ok {r : Registry} {selected : List String}
    (h : ∀ l ∈ selected, l ∈ r.interpLangs ++ r.parserLangs) :
    get_allowed_languages r selected = Except.ok selected.dedup := by
  rw [get_allowed_languages]
  have hnf : (selected.dedup.filter
      (fun l => ¬ (r.interpLangs ++ r.parserLangs).contains l)) = [] := by
    rw [List.filter_eq_nil_iff]
    intro l hl
    simp only [List.elem_eq_mem]
    simp [h l (List.mem_dedup.mp hl)]
  simp only [hnf]
  simp

theorem get_allowed_languages_err {r : Registry} {selected : List String}
    (h : ∃ l ∈ selected, l ∉ r.interpLangs ++ r.parserLangs) :
    ∃ nf, get_allowed_languages r selected = Except.error nf ∧ nf ≠ []
      ∧ ∀ l ∈ nf, l ∈ selected ∧ l ∉ r.interpLangs ++ r.parserLangs := by
  obtain ⟨l0, hl0, hl0n⟩ := h
  refine ⟨selected.dedup.filter
      (fun l => ¬ (r.interpLangs ++ r.parserLangs).contains l), ?_, ?_, ?_⟩
  · rw [get_allowed_languages]
    rw [if_pos]
    intro hnil
    have : l0 ∈ ([] : List String) := by
      rw [← hnil]
      rw [List.mem_filter]
      refine ⟨List.mem_dedup.mpr hl0, ?_⟩
      simp [List.elem_eq_mem, hl0n]
    simp at this
  · intro hnil
    have : l0 ∈ ([] : List String) := by
      rw [← hnil]
      rw [List.mem_filter]
      refine ⟨List.mem_dedup.mpr hl0, ?_⟩
      simp [List.elem_eq_mem, hl0n]
    simp at this
  · intro l hl
    rw [List.mem_filter] at hl
    refine ⟨List.mem_dedup.mp hl.1, ?_⟩
    have := hl.2
    simp [List.elem_eq_mem] at this
    simp [List.mem_append]
    exact this

theorem testfiles_eq (files skip : List String) :
    testfiles files skip = files.filter (fun f => f ∉ skip) := by
  rw [testfiles]
  refine List.filter_congr ?_
  intro f hf
  simp only [List.elem_eq_mem, List.mem_filter, List.mem_dedup, decide_eq_true_eq]
  simp [hf]

/-- C5: on a non-dry run whose language check passes, the exit status of
`main` is 0 iff every processed file's examples passed, 1 iff at least one
processed file failed and none aborted or crashed, and 2 iff at least one
processed file aborted or crashed; the status equals the maximum severity
observed across the processed files. -/
theorem exit_status_spec (r : Registry) (a : Args) (results : String → Bool × Bool)
    (hl : ∀ l ∈ a.languages, l ∈ r.interpLangs ++ r.parserLangs)
    (hdry : a.dry = false) :
    ∃ st ps, mainFn r a results = Except.ok (st, ps)
      ∧ (st = 0 ↔ ∀ f ∈ ps, (results f).1 = false ∧ (results f).2 = false)
      ∧ (st = 1 ↔ ((∃ f ∈ ps, (results f).1 = true) ∧ ∀ f ∈ ps, (results f).2 = false))
      ∧ (st = 2 ↔ ∃ f ∈ ps, (results f).2 = true)
      ∧ st = ((ps.map results).map sev).foldr max 0 := by
  rw [mainFn, get_allowed_languages_ok hl, hdry]
  rw [runLoop_acc a.fail_fast results (testfiles a.files a.skip) 0]
  refine ⟨_, procList a.fail_fast results (testfiles a.files a.skip), rfl, ?_, ?_, ?_, ?_⟩
  all_goals
    have hmm : List.map (fun f => sev (results f))
          (procList a.fail_fast results (testfiles a.files a.skip))
        = List.map sev (List.map results
            (procList a.fail_fast results (testfiles a.files a.skip))) := by
      simp [List.map_map]
    simp only [Nat.zero_max, hmm]
  · rw [sevFold_zero]
    simp [List.mem_map]
  · rw [sevFold_one]
    simp [List.mem_map]
  · rw [sevFold_two]
    simp [List.mem_map]

/-- C7: if some selected language is known to no discovered interpreter and
no parser, `get_allowed_languages` raises a configuration error (a non-empty
set of unknown selected languages) and `main` propagates it before any file
is processed — the same error results for any files, skip list, options and
per-file results; if every selected language is known, exactly the selected
set is returned. -/
theorem lang_check_spec (r : Registry) (a : Args) (results : String → Bool × Bool) :
    ((∃ l ∈ a.languages, l ∉ r.interpLangs ++ r.parserLangs) →
      ∃ nf, mainFn r a results = Except.error nf ∧ nf ≠ []
        ∧ (∀ l ∈ nf, l ∈ a.languages ∧ l ∉ r.interpLangs ++ r.parserLangs)
        ∧ ∀ (files skip : List String) (ff dry : Bool) (results' : String → Bool × Bool),
            mainFn r ⟨files, skip, a.languages, ff, dry⟩ results' = Except.error nf)
    ∧ ((∀ l ∈ a.languages, l ∈ r.interpLangs ++ r.parserLangs) →
      ∃ allowed, get_allowed_languages r a.languages = Except.ok allowed
        ∧ ∀ x, x ∈ allowed ↔ x ∈ a.languages) := by
  constructor
  · intro h
    obtain ⟨nf, hnf, hne, hmem⟩ := get_allowed_languages_err h
    refine ⟨nf, ?_, hne, hmem, ?_⟩
    · rw [mainFn, hnf]
    · intro files skip ff dry results'
      rw [mainFn]
      simp only [hnf]
  · intro h
    refine ⟨a.languages.dedup, get_allowed_languages_ok h, fun x => List.mem_dedup⟩

theorem runLoop_no_ff_files (dry : Bool) (res : String → Bool × Bool) :
    ∀ (fs : List String) (acc : Nat), (runLoop false dry res acc fs).2 = fs
  | [], acc => rfl
  | f :: fs, acc => by
    cases dry with
    | true => simp [runLoop_dry]
    | false =>
      rw [runLoop]
      simp [runLoop_no_ff_files false res fs]

/-- C10 (amended): when `FAIL_FAST` is unset (and the language check passes
so the loop runs), `main` processes exactly the files not in the skip list,
in command-line order, processing duplicates each time they appear; with
`FAIL_FAST` set the loop may instead stop after the first failing file. -/
theorem files_processed_no_ff (r : Registry) (a : Args) (results : String → Bool × Bool)
    (hff : a.fail_fast = false)
    (hl : ∀ l ∈ a.languages, l ∈ r.interpLangs ++ r.parserLangs) :
    ∃ st, mainFn r a results
      = Except.ok (st, a.files.filter (fun f => f ∉ a.skip)) := by
  rw [mainFn, get_allowed_languages_ok hl, hff]
  refine ⟨(runLoop false a.dry results 0 (testfiles a.files a.skip)).1, ?_⟩
  rw [← testfiles_eq]
  rw [show (runLoop false a.dry results 0 (testfiles a.files a.skip))
      = ((runLoop false a.dry results 0 (testfiles a.files a.skip)).1,
         (runLoop false a.dry results 0 (testfiles a.files a.skip)).2) from rfl]
  rw [runLoop_no_ff_files a.dry results (testfiles a.files a.skip) 0]

/-- C10 counterexample: with `FAIL_FAST` set and the first of two files
failing, `main` processes only the first file, not the whole skip-filtered
list, refuting the unqualified claim. -/
theorem files_processed_cex :
    mainFn ⟨["py"], []⟩ ⟨["a", "b"], [], ["py"], true, false⟩
        (fun f => (f == "a", false))
      = Except.ok (1, ["a"])
    ∧ (["a", "b"].filter (fun f => f ∉ ([] : List String))) = ["a", "b"]
    ∧ (["a"] : List String) ≠ ["a", "b"] := by
  refine ⟨?_, by decide, by decide⟩
  rfl

/-- C8 (code-bug evidence): re-scanning the same class object (class
identity 0) instantiates it a second time — the de-duplication
`set(klasses_found) - set(container.values())` subtracts a set of instances
from a set of classes and never removes anything — so two instantiations
happen (`nextIid = 2`) and the key is rebound to the fresh instance,
contrary to the code's own `remove already loaded` comment; a
later-discovered distinct class carrying the same identity value also
silently replaces the earlier entry. -/
theorem load_modules_rescan :
    (load_modules [[⟨0, "py"⟩], [⟨0, "py"⟩]]).nextIid = 2
    ∧ (load_modules [[⟨0, "py"⟩], [⟨0, "py"⟩]]).container
        = [("py", ⟨1, ⟨0, "py"⟩⟩)]
    ∧ (load_modules [[⟨0, "py"⟩], [⟨1, "py"⟩]]).container
        = [("py", ⟨1, ⟨1, "py"⟩⟩)] :=
  ⟨rfl, rfl, rfl⟩

/-- Witness for C1: a concrete buffer on which the amended properties hold. -/
theorem get_output_spec_witness :
    (get_output [] [['a']]).1.getLast? = some '\n'
    ∧ (get_output [] [['a']]).2 = [] :=
  ⟨(get_output_spec [] [['a']]).2.1 (by decide), (get_output_spec [] [['a']]).1⟩

/-- Witness for C2 at a concrete two-prompt stream. -/
theorem expect_prompt_settle_witness :
    expect_prompt '>' ['>'] (([['a'], ['b']].map (fun b => b ++ ['>', '>'])).flatten) []
      = Except.ok [['a'], ['b'], []] := by
  have h := (expect_prompt_settle '>' ['>'] [] [['a'], ['b']] (by decide) (by decide)).1
  simpa using h

/-- Witness for C3 at the empty stream (the seen output is empty). -/
theorem expect_prompt_stall_witness :
    expect_prompt '>' [] [] [] = Except.error ([[]], stallMessage [])
    ∧ (∃ u v, stallMessage [] = u ++ "taking too long to finish".toList ++ v)
    ∧ (∃ u v, stallMessage [] = u ++ "syntax error".toList ++ v) := by
  have h := expect_prompt_stall '>' [] [] [] (by decide)
  exact ⟨by simpa using h.1, h.2.1, h.2.2.1⟩

/-- Witness for C9 at a concrete stream with a non-empty prior buffer. -/
theorem expect_prompt_keeps_buffer_witness :
    expect_prompt '>' [] ['x'] [['o']] = Except.error ([['o'], ['x']], stallMessage ['x'])
    ∧ (get_output [] [['o'], ['x']]).1 = (get_output [] [['o', 'x']]).1 := by
  have h := expect_prompt_keeps_buffer '>' [] ['x'] [['o']] (by decide)
  exact ⟨h.1, by simpa using h.2 []⟩

/-- Witness for C4: two concrete observer lists, one without and one with a
raising observer. -/
theorem concern_fan_out_witness :
    for_each_concern_do HookName.success []
        [⟨fun _ _ => ⟨[1], some 7, none⟩⟩, ⟨fun _ _ => ⟨[2], none, none⟩⟩]
      = ([1, 2], none)
    ∧ for_each_concern_do HookName.failure []
        [⟨fun _ _ => ⟨[1], some 7, none⟩⟩, ⟨fun _ _ => ⟨[2], none, some 9⟩⟩,
         ⟨fun _ _ => ⟨[3], none, none⟩⟩]
      = ([1, 2], some 9) := by
  constructor
  · have h := (concern_fan_out HookName.success []
        [⟨fun _ _ => ⟨[1], some 7, none⟩⟩, ⟨fun _ _ => ⟨[2], none, none⟩⟩]).1
        (by decide)
    simpa using h
  · have h := (concern_fan_out HookName.failure []
        [⟨fun _ _ => ⟨[1], some 7, none⟩⟩, ⟨fun _ _ => ⟨[2], none, some 9⟩⟩,
         ⟨fun _ _ => ⟨[3], none, none⟩⟩]).2
        [⟨fun _ _ => ⟨[1], some 7, none⟩⟩] ⟨fun _ _ => ⟨[2], none, some 9⟩⟩
        [⟨fun _ _ => ⟨[3], none, none⟩⟩] 9 rfl (by decide) rfl
    simpa using h

/-- Witness for C5: one failing file yields exit status 1. -/
theorem exit_status_spec_witness :
    mainFn ⟨["py"], []⟩ ⟨["f1"], [], ["py"], false, false⟩ (fun _ => (true, false))
      = Except.ok (1, ["f1"]) := by
  obtain ⟨st, ps, heq, -, -, -, -⟩ := exit_status_spec ⟨["py"], []⟩
    ⟨["f1"], [], ["py"], false, false⟩ (fun _ => (true, false)) (by decide) rfl
  have hc : (Except.ok (1, ["f1"]) : Except (List String) (Nat × List String))
      = Except.ok (st, ps) := by rw [← heq]; rfl
  rw [heq, ← Except.ok.inj hc]

/-- Witness for C7: an unknown language fails before the file loop; a known
one is returned as a set. -/
theorem lang_check_spec_witness :
    mainFn ⟨["py"], []⟩ ⟨["f"], [], ["rb"], false, false⟩ (fun _ => (false, false))
      = Except.error ["rb"]
    ∧ get_allowed_languages ⟨["py"], []⟩ ["py", "py"] = Except.ok ["py"] := by
  constructor
  · obtain ⟨nf, heq, -, -, -⟩ := (lang_check_spec ⟨["py"], []⟩
        ⟨["f"], [], ["rb"], false, false⟩ (fun _ => (false, false))).1
        ⟨"rb", by decide, by decide⟩
    have hc : (Except.error ["rb"] : Except (List String) (Nat × List String))
        = Except.error nf := by rw [← heq]; rfl
    rw [heq, ← Except.error.inj hc]
  · obtain ⟨allowed, heq, -⟩ := (lang_check_spec ⟨["py"], []⟩
        ⟨["f"], [], ["py", "py"], false, false⟩ (fun _ => (false, false))).2
        (by decide)
    have hc : (Except.ok ["py"] : Except (List String) (List String))
        = Except.ok allowed := by rw [← heq]; rfl
    rw [heq, ← Except.ok.inj hc]

/-- Witness for C10: without FAIL_FAST the skipped file is omitted and the
duplicate is processed twice. -/
theorem files_processed_no_ff_witness :
    mainFn ⟨["py"], []⟩ ⟨["a", "b", "a"], ["b"], ["py"], false, false⟩
        (fun _ => (true, false))
      = Except.ok (1, ["a", "a"]) := by
  obtain ⟨st, heq⟩ := files_processed_no_ff ⟨["py"], []⟩
    ⟨["a", "b", "a"], ["b"], ["py"], false, false⟩ (fun _ => (true, false)) rfl (by decide)
  have hfilter : (["a", "b", "a"].filter (fun f => f ∉ (["b"] : List String)))
      = ["a", "a"] := by decide
  rw [hfilter] at heq
  have hc : (Except.ok (1, ["a", "a"]) : Except (List String) (Nat × List String))
      = Except.ok (st, ["a", "a"]) := by rw [← heq]; rfl
  have hst : (1, (["a", "a"] : List String)) = (st, ["a", "a"]) := Except.ok.inj hc
  rw [heq, ← hst]

